import Mathlib

/-!
Verification of the openkit installer core: the hook composer
(mergeHooks), the frontmatter parser (parseFrontmatter / parseValue),
the extension loaders (loadAgents / loadCommands) and the install pass
(installExtensions / copyDir), embedded shallowly from the source.
-/

namespace OpenKit

/-! ### JS-object maps

JS objects are modelled as association lists of (key, value) pairs in
insertion order.  Property read gives the (unique) binding; property
assignment replaces the binding in place or appends a fresh one; object
spread is a sequence of property assignments. -/

/-- Property read on a JS object: the first binding of the key. -/
def lookupMap {α : Type} (m : List (String × α)) (k : String) : Option α :=
  match m with
  | [] => none
  | p :: r => if p.1 == k then some p.2 else lookupMap r k

/-- Property assignment on a JS object: overwrite in place, else append. -/
def setMapKey {α : Type} (m : List (String × α)) (k : String) (v : α) :
    List (String × α) :=
  match m with
  | [] => [(k, v)]
  | p :: r => if p.1 == k then (k, v) :: r else p :: setMapKey r k v

/-- JS object spread of two objects as in the idiom of assigning every
property of the second over a copy of the first. -/
def spreadTwo {α : Type} (m1 m2 : List (String × α)) : List (String × α) :=
  m2.foldl (fun acc p => setMapKey acc p.1 p.2) m1

/-! ### The hook-set data model

A notification-style hook callable is modelled by its effect trace: a
function from the invocation input to the list of effects it performs,
in order.  Awaiting one callable to completion and then another
therefore concatenates their traces. -/

/-- A hook callable, modelled as input to effect trace. -/
def Callable (ι ε : Type) : Type := ι → List ε

/-- Sequential composition of two callables exactly as in the source:
an arrow that awaits the first to completion, then the second. -/
def chain {ι ε : Type} (prev next : Callable ι ε) : Callable ι ε :=
  fun i => prev i ++ next i

/-- A HookSet: the tool map slot, the event and config slots, and the
other enumerated named hook slots (kept as a JS object keyed by the
hook name). -/
structure Hooks (ι ε α : Type) : Type where
  tool : Option (List (String × α))
  event : Option (Callable ι ε)
  config : Option (Callable ι ε)
  named : List (String × Callable ι ε)

/-- The empty HookSet: the object literal with no slot present. -/
def emptyHooks {ι ε α : Type} : Hooks ι ε α :=
  { tool := none, event := none, config := none, named := [] }

/-- The fixed catalogue of further sequential hook slot names iterated
by the composer. -/
def hookNames : List String :=
  ["chat.message", "chat.params", "chat.headers",
   "permission.ask", "command.execute.before",
   "tool.execute.before", "tool.execute.after", "tool.definition",
   "shell.env",
   "experimental.chat.messages.transform",
   "experimental.chat.system.transform",
   "experimental.session.compacting",
   "experimental.text.complete"]

/-- One iteration of the composer's loop over the named hook slots: if
the other HookSet has the slot, chain it after the current value (or
install it alone). -/
def mergeNamed {ι ε α : Type} (other : Hooks ι ε α) (m : Hooks ι ε α)
    (name : String) : Hooks ι ε α :=
  match lookupMap other.named name with
  | none => m
  | some next =>
      let v :=
        match lookupMap m.named name with
        | some prev => chain prev next
        | none => next
      { m with named := setMapKey m.named name v }

/-- The composer's tool step: spread the other tool map over the
current one (spreading an absent map spreads the empty object). -/
def mergeToolStep {ι ε α : Type} (m other : Hooks ι ε α) : Hooks ι ε α :=
  match other.tool with
  | some ot => { m with tool := some (spreadTwo (m.tool.getD []) ot) }
  | none => m

/-- The composer's event step: chain the other event hook after the
current one. -/
def mergeEventStep {ι ε α : Type} (m other : Hooks ι ε α) : Hooks ι ε α :=
  match other.event with
  | some next =>
      let v :=
        match m.event with
        | some prev => chain prev next
        | none => next
      { m with event := some v }
  | none => m

/-- The composer's config step: chain the other config hook after the
current one. -/
def mergeConfigStep {ι ε α : Type} (m other : Hooks ι ε α) : Hooks ι ε α :=
  match other.config with
  | some next =>
      let v :=
        match m.config with
        | some prev => chain prev next
        | none => next
      { m with config := some v }
  | none => m

/-- The hook composer.  Mirrors the source: start from a shallow copy
of the base, spread the other tool map over the base one, chain the
event and config slots, then loop over the named slot catalogue. -/
def mergeHooks {ι ε α : Type} (base other : Hooks ι ε α) : Hooks ι ε α :=
  hookNames.foldl (mergeNamed other)
    (mergeConfigStep (mergeEventStep (mergeToolStep base other) other) other)

/-- Trace of an optional callable: an absent slot performs no effect. -/
def traceOpt {ι ε : Type} (c : Option (Callable ι ε)) (i : ι) : List ε :=
  match c with
  | some f => f i
  | none => []

/-- Tool lookup through a HookSet's optional tool map slot. -/
def lookupTool {ι ε α : Type} (h : Hooks ι ε α) (k : String) : Option α :=
  match h.tool with
  | some m => lookupMap m k
  | none => none

/-- First-of-two choice on options (the JS pattern of a later binding
shadowing an earlier one reads right to left here). -/
def orElseO {α : Type} (a b : Option α) : Option α :=
  match a with
  | some v => some v
  | none => b

/-- The value a single chained slot ends up with: absent stays absent,
a sole later callable is installed unwrapped, two callables chain. -/
def mergeSlotL {ι ε : Type} (p q : Option (Callable ι ε)) :
    Option (Callable ι ε) :=
  match q with
  | none => p
  | some nx =>
      some (match p with
            | some pv => chain pv nx
            | none => nx)

/-! ### Concrete hook sets used to witness the composer theorems -/

/-- A concrete hook set whose callables emit tagged effects. -/
def hwA : Hooks Nat Nat Nat :=
  { tool := some [("x", 1)], event := some (fun _ => [1]),
    config := some (fun _ => [10]),
    named := [("chat.message", fun _ => [100])] }

/-- A second concrete hook set. -/
def hwB : Hooks Nat Nat Nat :=
  { tool := some [("x", 2), ("y", 3)], event := some (fun _ => [2]),
    config := some (fun _ => [20]),
    named := [("chat.message", fun _ => [200])] }

/-- A third concrete hook set. -/
def hwC : Hooks Nat Nat Nat :=
  { tool := none, event := some (fun _ => [3]),
    config := some (fun _ => [30]),
    named := [("chat.message", fun _ => [300])] }

/-! ### Store-level model of the composer

To state that the composer never mutates its inputs, the two input
HookSet objects and the tool maps they point to live in an explicit
store; the composer allocates a fresh object for the result and writes
only to it.  References are indices into the store's lists. -/

/-- A HookSet object whose tool slot is a reference to a map cell. -/
structure HooksObj (ι ε α : Type) : Type where
  tool : Option Nat
  event : Option (Callable ι ε)
  config : Option (Callable ι ε)
  named : List (String × Callable ι ε)

/-- The store: allocated HookSet objects and allocated tool maps. -/
structure Store (ι ε α : Type) : Type where
  objs : List (HooksObj ι ε α)
  maps : List (List (String × α))

/-- Allocate a fresh HookSet object and return its reference. -/
def allocObj {ι ε α : Type} (s : Store ι ε α) (ob : HooksObj ι ε α) :
    Store ι ε α × Nat :=
  ({ s with objs := s.objs ++ [ob] }, s.objs.length)

/-- Allocate a fresh tool map and return its reference. -/
def allocMap {ι ε α : Type} (s : Store ι ε α) (m : List (String × α)) :
    Store ι ε α × Nat :=
  ({ s with maps := s.maps ++ [m] }, s.maps.length)

/-- In-place field update of the object behind a reference. -/
def updObj {ι ε α : Type} (s : Store ι ε α) (r : Nat)
    (f : HooksObj ι ε α → HooksObj ι ε α) : Store ι ε α :=
  match s.objs[r]? with
  | some ob => { s with objs := s.objs.set r (f ob) }
  | none => s

/-- One named-slot loop iteration of the store-level composer, writing
the chained callable into the merged object. -/
def mergeNamedS {ι ε α : Type} (other : HooksObj ι ε α) (r : Nat)
    (s : Store ι ε α) (name : String) : Store ι ε α :=
  match lookupMap other.named name with
  | none => s
  | some next =>
      updObj s r (fun ob =>
        let v :=
          match lookupMap ob.named name with
          | some prev => chain prev next
          | none => next
        { ob with named := setMapKey ob.named name v })

/-- The store-level tool step: when the other set has a tool map,
read both maps, allocate the fresh spread map, and point the merged
object's tool slot at it.  Dangling references give none. -/
def toolStepS {ι ε α : Type} (base other : HooksObj ι ε α)
    (s : Store ι ε α) (r : Nat) : Option (Store ι ε α) :=
  match other.tool with
  | none => some s
  | some otr =>
      match s.maps[otr]? with
      | none => none
      | some om =>
          let bmq :=
            match base.tool with
            | none => some []
            | some btr => s.maps[btr]?
          match bmq with
          | none => none
          | some bm =>
              let p2 := allocMap s (spreadTwo bm om)
              some (updObj p2.1 r (fun ob => { ob with tool := some p2.2 }))

/-- The store-level event step: chain the other event callable after
the merged object's current one. -/
def eventStepS {ι ε α : Type} (other : HooksObj ι ε α) (r : Nat)
    (s : Store ι ε α) : Store ι ε α :=
  match other.event with
  | none => s
  | some next =>
      updObj s r (fun ob =>
        let v :=
          match ob.event with
          | some prev => chain prev next
          | none => next
        { ob with event := some v })

/-- The store-level config step: chain the other config callable after
the merged object's current one. -/
def configStepS {ι ε α : Type} (other : HooksObj ι ε α) (r : Nat)
    (s : Store ι ε α) : Store ι ε α :=
  match other.config with
  | none => s
  | some next =>
      updObj s r (fun ob =>
        let v :=
          match ob.config with
          | some prev => chain prev next
          | none => next
        { ob with config := some v })

/-- The store-level composer.  It reads the two input objects, starts
the merged object as a shallow copy of the base (sharing the base's
tool-map reference), allocates a fresh spread tool map when the other
set has one, chains the event and config slots, and runs the named
loop; every write targets the freshly allocated merged object. -/
def mergeHooksS {ι ε α : Type} (s0 : Store ι ε α) (b o : Nat) :
    Option (Store ι ε α × Nat) :=
  match s0.objs[b]?, s0.objs[o]? with
  | some base, some other =>
      let p1 := allocObj s0 base
      match toolStepS base other p1.1 p1.2 with
      | none => none
      | some s2 =>
          some (hookNames.foldl (mergeNamedS other p1.2)
            (configStepS other p1.2 (eventStepS other p1.2 s2)), p1.2)
  | _, _ => none

/-- A concrete two-object store used to witness the frame theorem. -/
def sw0 : Store Nat Nat Nat :=
  { objs := [{ tool := some 0, event := none, config := none, named := [] },
             { tool := some 1, event := none, config := none, named := [] }],
    maps := [[("x", 1)], [("y", 2)]] }

/-- The store after merging the two objects of the concrete store. -/
def sw1 : Store Nat Nat Nat :=
  { objs := [{ tool := some 0, event := none, config := none, named := [] },
             { tool := some 1, event := none, config := none, named := [] },
             { tool := some 2, event := none, config := none, named := [] }],
    maps := [[("x", 1)], [("y", 2)], [("x", 1), ("y", 2)]] }

/-- The frame property: every object and map cell that existed in the
first store is unchanged in the second. -/
def FrameExt {ι ε α : Type} (s0 s : Store ι ε α) : Prop :=
  s0.objs.length ≤ s.objs.length ∧
  (∀ i, i < s0.objs.length → s.objs[i]? = s0.objs[i]?) ∧
  s0.maps.length ≤ s.maps.length ∧
  (∀ j, j < s0.maps.length → s.maps[j]? = s0.maps[j]?)

/-! ### Frontmatter parser

Documents are lists of characters.  The header-matching regular
expression anchors at the start of the string, requires an opening
three-hyphen line, lazily scans to the first later line beginning with
three hyphens, and optionally consumes one line terminator after the
closing hyphens; the remainder is the body, returned untrimmed. -/

/-- The whitespace characters recognised by trimming and by numeric
conversion. -/
def isWsChar (c : Char) : Bool :=
  c = ' ' || c = '\t' || c = '\n' || c = '\r' || c = '\x0b' || c = '\x0c'

/-- Trim leading and trailing whitespace. -/
def trimList (s : List Char) : List Char :=
  ((s.dropWhile isWsChar).reverse.dropWhile isWsChar).reverse

/-- Whether the scan position starts the closing delimiter: a line
terminator followed by three hyphens. -/
def isCloseHead (s : List Char) : Bool :=
  match s with
  | '\r' :: '\n' :: '-' :: '-' :: '-' :: _ => true
  | '\n' :: '-' :: '-' :: '-' :: _ => true
  | _ => false

/-- Consume the closing delimiter at the scan position. -/
def dropClose (s : List Char) : List Char :=
  match s with
  | '\r' :: '\n' :: '-' :: '-' :: '-' :: rest => rest
  | '\n' :: '-' :: '-' :: '-' :: rest => rest
  | _ => s

/-- Lazy scan for the first closing delimiter; returns the header
region and the text after the three closing hyphens. -/
def splitAtClose (s : List Char) : Option (List Char × List Char) :=
  match s with
  | [] => none
  | c :: cs =>
      if isCloseHead (c :: cs) then some ([], dropClose (c :: cs))
      else
        match splitAtClose cs with
        | some (g, r) => some (c :: g, r)
        | none => none

/-- Consume at most one optional carriage return and one optional line
feed after the closing hyphens. -/
def eatNl (s : List Char) : List Char :=
  match s with
  | '\r' :: '\n' :: rest => rest
  | '\r' :: rest => rest
  | '\n' :: rest => rest
  | rest => rest

/-- The header-matching regular expression: on success, the header
region and the body. -/
def matchHeader (raw : List Char) : Option (List Char × List Char) :=
  match raw with
  | '-' :: '-' :: '-' :: rest =>
      let afterOpen :=
        match rest with
        | '\r' :: '\n' :: r => some r
        | '\n' :: r => some r
        | _ => none
      match afterOpen with
      | none => none
      | some r =>
          match splitAtClose r with
          | none => none
          | some (g, t) => some (g, eatNl t)
  | _ => none

/-- Parsed scalar or nested values of header entries. -/
inductive JsNum : Type where
  | fin (q : ℚ)
  | inf (neg : Bool)
deriving DecidableEq

/-- A frontmatter value: string, number, boolean, or one-level nested
mapping. -/
inductive Value : Type where
  | str (s : List Char)
  | num (n : JsNum)
  | bool (b : Bool)
  | map (m : List (String × Value))

/-- Digit value of a character in radices up to 16. -/
def hexDigitVal (c : Char) : Option Nat :=
  if c.isDigit then some (c.toNat - 48)
  else if 'a' ≤ c && c ≤ 'f' then some (c.toNat - 87)
  else if 'A' ≤ c && c ≤ 'F' then some (c.toNat - 55)
  else none

/-- Value of a non-empty digit string in the given radix. -/
def digitsVal (radix : Nat) (s : List Char) : Option Nat :=
  if s.isEmpty then none
  else
    s.foldl (fun acc c =>
      acc.bind (fun a =>
        (hexDigitVal c).bind (fun d =>
          if d < radix then some (radix * a + d) else none)))
      (some 0)

/-- Split at the first character satisfying the test; the split
character is dropped. -/
def splitFirst (p : Char → Bool) (s : List Char) :
    Option (List Char × List Char) :=
  match s with
  | [] => none
  | c :: r =>
      if p c then some ([], r)
      else
        match splitFirst p r with
        | some (a, b) => some (c :: a, b)
        | none => none

/-- An optionally signed non-empty decimal digit string, as used for
exponents. -/
def parseSignedDigits (s : List Char) : Option Int :=
  match s with
  | '+' :: r => (digitsVal 10 r).map Int.ofNat
  | '-' :: r => (digitsVal 10 r).map (fun n => -(Int.ofNat n))
  | r => (digitsVal 10 r).map Int.ofNat

/-- The decimal mantissa grammar: digits, digits dot digits, dot
digits, or digits dot. -/
def decMantissa (s : List Char) : Option ℚ :=
  match splitFirst (fun c => c = '.') s with
  | none => (digitsVal 10 s).map (fun n => (n : ℚ))
  | some (a, b) =>
      if a.isEmpty && b.isEmpty then none
      else if a.isEmpty then
        (digitsVal 10 b).map (fun nb => (nb : ℚ) / (10 : ℚ) ^ b.length)
      else if b.isEmpty then (digitsVal 10 a).map (fun na => (na : ℚ))
      else
        match digitsVal 10 a, digitsVal 10 b with
        | some na, some nb => some ((na : ℚ) + (nb : ℚ) / (10 : ℚ) ^ b.length)
        | _, _ => none

/-- A decimal literal with optional exponent. -/
def decNumber (s : List Char) : Option ℚ :=
  match splitFirst (fun c => c = 'e' || c = 'E') s with
  | none => decMantissa s
  | some (m, e) =>
      match decMantissa m, parseSignedDigits e with
      | some q, some x => some (q * (10 : ℚ) ^ x)
      | _, _ => none

/-- The signed part of the numeric-string grammar: Infinity or a
decimal literal. -/
def bodyNum (r : List Char) (neg : Bool) : Option JsNum :=
  if r = "Infinity".data then some (JsNum.inf neg)
  else (decNumber r).map (fun q => JsNum.fin (if neg then -q else q))

/-- JS string-to-number conversion: trim, empty is zero, hex, octal
and binary literals unsigned, otherwise an optionally signed decimal
literal or Infinity; anything else is NaN, modelled as none. -/
def jsStrToNum (s : List Char) : Option JsNum :=
  let t := trimList s
  if t.isEmpty then some (JsNum.fin 0)
  else
    match t with
    | '0' :: 'x' :: r => (digitsVal 16 r).map (fun n => JsNum.fin (n : ℚ))
    | '0' :: 'X' :: r => (digitsVal 16 r).map (fun n => JsNum.fin (n : ℚ))
    | '0' :: 'o' :: r => (digitsVal 8 r).map (fun n => JsNum.fin (n : ℚ))
    | '0' :: 'O' :: r => (digitsVal 8 r).map (fun n => JsNum.fin (n : ℚ))
    | '0' :: 'b' :: r => (digitsVal 2 r).map (fun n => JsNum.fin (n : ℚ))
    | '0' :: 'B' :: r => (digitsVal 2 r).map (fun n => JsNum.fin (n : ℚ))
    | '+' :: r => bodyNum r false
    | '-' :: r => bodyNum r true
    | r => bodyNum r false

/-- Whether a list starts with the given character. -/
def headIs (s : List Char) (c : Char) : Bool :=
  match s with
  | a :: _ => a == c
  | [] => false

/-- Whether a list ends with the given character. -/
def lastIs (s : List Char) (c : Char) : Bool :=
  match s.getLast? with
  | some a => a == c
  | none => false

/-- The quote-stripping fallback of the scalar coercion: strip the
outer characters when the value starts and ends with the same quote
character, else keep the value as is. -/
def quoteOrPlain (s : List Char) : Value :=
  if (headIs s '"' && lastIs s '"') || (headIs s '\'' && lastIs s '\'') then
    Value.str ((s.drop 1).dropLast)
  else Value.str s

/-- The scalar value coercion, mirroring the source: boolean literals,
then a numeric conversion accepted when it is not NaN and the value is
not whitespace-only, then quote stripping, then the value unchanged. -/
def parseValue (s : List Char) : Value :=
  if s = "true".data then Value.bool true
  else if s = "false".data then Value.bool false
  else
    match jsStrToNum s with
    | some n =>
        if (trimList s).isEmpty then quoteOrPlain s else Value.num n
    | none => quoteOrPlain s

/-- Split the header region into lines at optional carriage return
plus line feed. -/
def splitLinesRN (s : List Char) : List (List Char) :=
  match s with
  | [] => [[]]
  | '\r' :: '\n' :: rest => [] :: splitLinesRN rest
  | '\n' :: rest => [] :: splitLinesRN rest
  | c :: rest =>
      match splitLinesRN rest with
      | l :: ls => (c :: l) :: ls
      | [] => [[c]]

/-- A word character of the key pattern. -/
def isWordChar (c : Char) : Bool :=
  c.isAlphanum || c = '_'

/-- Match a key at the start of a line: a word character, then word
characters or hyphens, then a colon; returns the key and the rest. -/
def keySplit (s : List Char) : Option (List Char × List Char) :=
  match s with
  | [] => none
  | c :: r =>
      if isWordChar c then
        let keyRest := r.takeWhile (fun d => isWordChar d || d = '-')
        match r.dropWhile (fun d => isWordChar d || d = '-') with
        | ':' :: rest => some (c :: keyRest, rest)
        | _ => none
      else none

/-- Match an indented header line: exactly two spaces, a key, a colon,
optional whitespace, then at least one character of value.  When all
that follows the colon is whitespace, the greedy whitespace run backs
off by one character and the value is that last whitespace character. -/
def indentedMatch (line : List Char) : Option (List Char × List Char) :=
  match line with
  | ' ' :: ' ' :: rest =>
      match keySplit rest with
      | some (k, after) =>
          if after.isEmpty then none
          else
            match after.dropWhile isWsChar with
            | [] =>
                match after.getLast? with
                | some c => some (k, [c])
                | none => none
            | d => some (k, d)
      | none => none
  | _ => none

/-- Match a top-level header line: a key at column zero, a colon,
optional whitespace, then the (possibly empty) rest of the line. -/
def topMatch (line : List Char) : Option (List Char × List Char) :=
  match keySplit line with
  | some (k, after) => some (k, after.dropWhile isWsChar)
  | none => none

/-- The header-loop state: the accumulated map, the current top-level
key, and whether a nested mapping is open under it. -/
structure HeaderState : Type where
  data : List (String × Value)
  curKey : Option String
  nOpen : Bool

/-- Process one header line: an indented line extends the open nested
mapping; otherwise a top-level line sets a scalar or opens an empty
nested mapping; all other lines are ignored. -/
def procLine (st : HeaderState) (line : List Char) : HeaderState :=
  match indentedMatch line, st.curKey, st.nOpen with
  | some (sub, val), some k, true =>
      let nm :=
        match lookupMap st.data k with
        | some (Value.map m) => m
        | _ => []
      let v := Value.map (setMapKey nm (String.mk sub) (parseValue val))
      { st with data := setMapKey st.data k v }
  | _, _, _ =>
      match topMatch line with
      | none => st
      | some (k, g2) =>
          let key := String.mk k
          let value := trimList g2
          if value.isEmpty then
            { data := setMapKey st.data key (Value.map []),
              curKey := some key, nOpen := true }
          else
            { data := setMapKey st.data key (parseValue value),
              curKey := some key, nOpen := false }

/-- Parse the header region into the metadata map. -/
def parseHeaderLines (g : List Char) : List (String × Value) :=
  ((splitLinesRN g).foldl procLine
    { data := [], curKey := none, nOpen := false }).data

/-- The frontmatter parser: on a header match, the parsed metadata and
the (untrimmed) body; otherwise the empty map and the raw input. -/
def parseFrontmatter (raw : List Char) :
    List (String × Value) × List Char :=
  match matchHeader raw with
  | none => ([], raw)
  | some (g, content) => (parseHeaderLines g, content)

/-- No closing delimiter starts inside the region, given what follows
it. -/
def freeOfClose (g tail : List Char) : Bool :=
  match g with
  | [] => true
  | c :: g' => !(isCloseHead (c :: (g' ++ tail))) && freeOfClose g' tail

/-- The scalar coercion exactly as the specification words it: the
quote clause strips a matching pair of outer quotes (a pair needs two
characters) and the final clause keeps the value as a trimmed string. -/
def claimQuoteOrTrim (s : List Char) : Value :=
  if 2 ≤ s.length ∧
      ((s.head? = some '"' ∧ s.getLast? = some '"') ∨
        (s.head? = some '\'' ∧ s.getLast? = some '\'')) then
    Value.str ((s.drop 1).dropLast)
  else Value.str (trimList s)

/-- The claimed scalar coercion: boolean literals, then values parsing
to a finite number (and not whitespace-only) become numbers, then the
quote clause, then a trimmed string. -/
def claimValueC7 (s : List Char) : Value :=
  if s = "true".data then Value.bool true
  else if s = "false".data then Value.bool false
  else
    match jsStrToNum s with
    | some (JsNum.fin q) =>
        if trimList s ≠ [] then Value.num (JsNum.fin q)
        else claimQuoteOrTrim s
    | _ => claimQuoteOrTrim s

/-- The amended scalar coercion, worded declaratively: boolean
literals; then any value whose numeric conversion is not NaN and that
is not whitespace-only becomes that number, finite or not; then a
value whose first and last characters are the same quote character
(a lone quote character qualifies) has those characters stripped; any
other value is kept exactly as given, with no trimming. -/
def specValueAmended (s : List Char) : Value :=
  if s = "true".data then Value.bool true
  else if s = "false".data then Value.bool false
  else if jsStrToNum s ≠ none ∧ trimList s ≠ [] then
    Value.num ((jsStrToNum s).getD (JsNum.fin 0))
  else if (s.head? = some '"' ∧ s.getLast? = some '"') ∨
      (s.head? = some '\'' ∧ s.getLast? = some '\'') then
    Value.str ((s.drop 1).dropLast)
  else Value.str s

/-! ### Extension loaders

A directory entry carries the file name, whether it is a regular file,
and the file contents; a read that throws is modelled by an absent
content.  Loaders accumulate the definitions plus the warned file
names. -/

/-- A directory entry seen by a loader. -/
structure DirEnt : Type where
  name : String
  isFile : Bool
  content : Option (List Char)

/-- Whether a file name ends in the markdown suffix. -/
def mdSuffix (s : String) : Bool :=
  ".md".data.isSuffixOf s.data

/-- The file's base name with the markdown suffix stripped. -/
def baseNameMd (s : String) : String :=
  String.mk (s.data.take (s.data.length - 3))

/-- The agent loader's per-entry effect on the definitions map:
non-files and non-markdown names are filtered, a throwing read leaves
the map alone, and otherwise the parsed metadata plus the synthesized
prompt field is stored under the base name. -/
def agentStepRes (a : List (String × List (String × Value))) (e : DirEnt) :
    List (String × List (String × Value)) :=
  if e.isFile && mdSuffix e.name then
    match e.content with
    | none => a
    | some raw =>
        let pr := parseFrontmatter raw
        setMapKey a (baseNameMd e.name)
          (setMapKey pr.1 "prompt" (Value.str (trimList pr.2)))
  else a

/-- The agent loader's per-entry effect on the warning log. -/
def agentStepWarn (w : List String) (e : DirEnt) : List String :=
  if e.isFile && mdSuffix e.name then
    match e.content with
    | none => w ++ [e.name]
    | some _ => w
  else w

/-- Scan an agents directory into definitions and warnings. -/
def loadAgents (entries : List DirEnt) :
    List (String × List (String × Value)) × List String :=
  entries.foldl (fun acc e => (agentStepRes acc.1 e, agentStepWarn acc.2 e))
    ([], [])

/-- The command loader's per-entry effect on the definitions map; the
synthesized field is the template. -/
def commandStepRes (a : List (String × List (String × Value))) (e : DirEnt) :
    List (String × List (String × Value)) :=
  if e.isFile && mdSuffix e.name then
    match e.content with
    | none => a
    | some raw =>
        let pr := parseFrontmatter raw
        setMapKey a (baseNameMd e.name)
          (setMapKey pr.1 "template" (Value.str (trimList pr.2)))
  else a

/-- Scan a commands directory into definitions and warnings. -/
def loadCommands (entries : List DirEnt) :
    List (String × List (String × Value)) × List String :=
  entries.foldl (fun acc e => (commandStepRes acc.1 e, agentStepWarn acc.2 e))
    ([], [])

/-! ### The installer

Source trees are finite trees of named files and directories, and the
destination filesystem is the list of paths that exist, threaded
through the pass because copying a file makes it exist for later
existence checks. -/

/-- A destination path, as its components. -/
abbrev InstPath : Type := List String

/-- The install report accumulated by one pass. -/
structure InstCtx : Type where
  copied : List InstPath
  skipped : List InstPath
  created : List InstPath
deriving DecidableEq

/-- A source filesystem entry. -/
inductive FS : Type where
  | file (name : String)
  | dir (name : String) (entries : List FS)

/-- The per-file step: an existing destination is skipped unless
overwriting, otherwise the file is copied (and recorded as created
when it did not exist before). -/
def fileStep (ow : Bool) (p : InstPath) (st : List InstPath × InstCtx) :
    List InstPath × InstCtx :=
  if !ow && st.1.contains p then
    (st.1, { st.2 with skipped := st.2.skipped ++ [p] })
  else
    (p :: st.1,
     { st.2 with
        copied := st.2.copied ++ [p],
        created :=
          if st.1.contains p then st.2.created else st.2.created ++ [p] })

/-- Walk a directory's entries in order, copying files and recursing
into subdirectories (whose destination directory is created first). -/
def runList (ow : Bool) : List FS → InstPath → List InstPath × InstCtx →
    List InstPath × InstCtx
  | [], _, st => st
  | FS.file n :: rest, d, st =>
      runList ow rest d (fileStep ow (d ++ [n]) st)
  | FS.dir n sub :: rest, d, st =>
      runList ow rest d
        (runList ow sub (d ++ [n]) ((d ++ [n]) :: st.1, st.2))

/-- One iteration of the install loop: a requested directory missing
from the source tree is passed over, otherwise its destination
directory is created and the tree is copied. -/
def installStep (ow : Bool) (src : List (String × List FS))
    (st : List InstPath × InstCtx) (dir : String) :
    List InstPath × InstCtx :=
  match lookupMap src dir with
  | none => st
  | some entries =>
      runList ow entries ([".opencode", dir])
        (([".opencode", dir] : InstPath) :: st.1, st.2)

/-- One install pass: for each requested extension directory present
in the source tree, create the destination directory and copy it. -/
def installExtensions (dirs : List String) (ow : Bool)
    (src : List (String × List FS)) (dest0 : List InstPath) : InstCtx :=
  (dirs.foldl (installStep ow src) (dest0, ⟨[], [], []⟩)).2

/-- Disjointness of two path lists. -/
def DisjL (a b : List InstPath) : Prop :=
  ∀ p, p ∈ a → p ∈ b → False

/-- All destination file paths a directory walk visits. -/
def filePaths (d : InstPath) : List FS → List InstPath
  | [] => []
  | FS.file n :: rest => (d ++ [n]) :: filePaths d rest
  | FS.dir n sub :: rest => filePaths (d ++ [n]) sub ++ filePaths d rest

/-- A concrete agent file whose header sets a description. -/
def ea1 : DirEnt :=
  ⟨"one.md", true, some ("---\ndescription: hi\n---\nHello".data)⟩

/-- A concrete agent file whose read throws. -/
def ebad : DirEnt := ⟨"bad.md", true, none⟩

/-- A concrete agent file without a header. -/
def ea3 : DirEnt := ⟨"three.md", true, some ("x".data)⟩

-- ===================================================================
-- Lemmas and theorems
-- ===================================================================

/-- Reading a key that was just assigned gives the new value; any
other key is unaffected. -/
theorem lookupMap_setMapKey {α : Type} (m : List (String × α)) (k x : String)
    (v : α) :
    lookupMap (setMapKey m k v) x = if x = k then some v else lookupMap m x := by
  induction m with
  | nil =>
      by_cases hx : x = k
      · subst hx; simp [setMapKey, lookupMap]
      · simp [setMapKey, lookupMap, hx, beq_iff_eq, Ne.symm hx]
  | cons p r ih =>
      by_cases hp : p.1 = k
      · by_cases hx : x = k
        · subst hx
          simp [setMapKey, lookupMap, hp, beq_iff_eq]
        · simp [setMapKey, lookupMap, hp, hx, beq_iff_eq, Ne.symm hx]
      · by_cases hx : x = p.1
        · have hxk : ¬ x = k := fun h => hp (hx ▸ h)
          simp [setMapKey, lookupMap, hp, hx.symm, hxk, beq_iff_eq]
        · simp [setMapKey, lookupMap, hp, beq_iff_eq, Ne.symm hx, ih]

/-- A key that does not occur in a map reads as absent. -/
theorem lookupMap_eq_none_of_not_mem {α : Type} (m : List (String × α))
    (x : String) (hx : x ∉ m.map Prod.fst) : lookupMap m x = none := by
  induction m with
  | nil => simp [lookupMap]
  | cons p r ih =>
      simp only [List.map_cons, List.mem_cons] at hx
      push_neg at hx
      simp [lookupMap, beq_iff_eq, Ne.symm hx.1, ih hx.2]

/-- Spreading a duplicate-free object over another reads as the later
binding shadowing the earlier one. -/
theorem lookup_spreadTwo {α : Type} (m2 m1 : List (String × α))
    (hnd : (m2.map Prod.fst).Nodup) (x : String) :
    lookupMap (spreadTwo m1 m2) x = orElseO (lookupMap m2 x) (lookupMap m1 x) := by
  induction m2 generalizing m1 with
  | nil => simp [spreadTwo, lookupMap, orElseO]
  | cons p r ih =>
      simp only [List.map_cons, List.nodup_cons] at hnd
      have hstep : spreadTwo m1 (p :: r) = spreadTwo (setMapKey m1 p.1 p.2) r := by
        simp [spreadTwo]
      rw [hstep, ih _ hnd.2]
      by_cases hx : x = p.1
      · subst hx
        have hr : lookupMap r p.1 = none :=
          lookupMap_eq_none_of_not_mem r p.1 (by simpa using hnd.1)
        simp [hr, lookupMap_setMapKey, orElseO, lookupMap, beq_iff_eq]
      · simp [lookupMap_setMapKey, hx, orElseO, lookupMap, beq_iff_eq,
          Ne.symm hx]

/-- The named-slot loop never touches the tool, event or config slots. -/
theorem foldl_mergeNamed_fields {ι ε α : Type} (other : Hooks ι ε α)
    (l : List String) (m : Hooks ι ε α) :
    (List.foldl (mergeNamed other) m l).tool = m.tool ∧
    (List.foldl (mergeNamed other) m l).event = m.event ∧
    (List.foldl (mergeNamed other) m l).config = m.config := by
  induction l generalizing m with
  | nil => simp
  | cons a l ih =>
      have hstep : (mergeNamed other m a).tool = m.tool ∧
          (mergeNamed other m a).event = m.event ∧
          (mergeNamed other m a).config = m.config := by
        unfold mergeNamed
        cases lookupMap other.named a <;> simp
      rcases ih (mergeNamed other m a) with ⟨h1, h2, h3⟩
      exact ⟨by simp [List.foldl_cons, h1, hstep.1],
        by simp [List.foldl_cons, h2, hstep.2.1],
        by simp [List.foldl_cons, h3, hstep.2.2]⟩

/-- One loop iteration for a name other than the one read. -/
theorem mergeNamed_lookup_ne {ι ε α : Type} (other m : Hooks ι ε α)
    (a x : String) (hax : x ≠ a) :
    lookupMap (mergeNamed other m a).named x = lookupMap m.named x := by
  unfold mergeNamed
  cases lookupMap other.named a <;>
    simp [lookupMap_setMapKey, hax]

/-- The named-slot loop leaves names outside the processed list alone. -/
theorem foldl_mergeNamed_lookup_notmem {ι ε α : Type} (other : Hooks ι ε α)
    (l : List String) (m : Hooks ι ε α) (x : String) (hx : x ∉ l) :
    lookupMap (List.foldl (mergeNamed other) m l).named x =
      lookupMap m.named x := by
  induction l generalizing m with
  | nil => simp
  | cons a l ih =>
      simp only [List.mem_cons] at hx
      push_neg at hx
      rw [List.foldl_cons, ih _ hx.2, mergeNamed_lookup_ne other m a x hx.1]

/-- The named-slot loop applies the single-slot merge rule at every
processed name. -/
theorem foldl_mergeNamed_lookup_mem {ι ε α : Type} (other : Hooks ι ε α)
    (l : List String) (m : Hooks ι ε α) (x : String) (hx : x ∈ l)
    (hnd : l.Nodup) :
    lookupMap (List.foldl (mergeNamed other) m l).named x =
      mergeSlotL (lookupMap m.named x) (lookupMap other.named x) := by
  induction l generalizing m with
  | nil => cases hx
  | cons a l ih =>
      simp only [List.nodup_cons] at hnd
      rcases List.mem_cons.mp hx with h | h
      · subst h
        rw [List.foldl_cons, foldl_mergeNamed_lookup_notmem other l _ x hnd.1]
        unfold mergeNamed mergeSlotL
        cases lookupMap other.named x <;>
          simp [lookupMap_setMapKey]
      · have hxa : x ≠ a := fun he => hnd.1 (he ▸ h)
        rw [List.foldl_cons, ih _ h hnd.2, mergeNamed_lookup_ne other m a x hxa]

/-- The composed tool slot. -/
theorem mergeHooks_tool {ι ε α : Type} (b o : Hooks ι ε α) :
    (mergeHooks b o).tool =
      match o.tool with
      | some ot => some (spreadTwo (b.tool.getD []) ot)
      | none => b.tool := by
  unfold mergeHooks
  rw [(foldl_mergeNamed_fields o hookNames _).1]
  unfold mergeConfigStep mergeEventStep mergeToolStep
  cases o.tool <;> cases o.event <;> cases o.config <;> simp

/-- The composed event slot follows the single-slot merge rule. -/
theorem mergeHooks_event {ι ε α : Type} (b o : Hooks ι ε α) :
    (mergeHooks b o).event = mergeSlotL b.event o.event := by
  unfold mergeHooks
  rw [(foldl_mergeNamed_fields o hookNames _).2.1]
  unfold mergeConfigStep mergeEventStep mergeToolStep mergeSlotL
  cases o.tool <;> cases o.event <;> cases o.config <;> simp

/-- The composed config slot follows the single-slot merge rule. -/
theorem mergeHooks_config {ι ε α : Type} (b o : Hooks ι ε α) :
    (mergeHooks b o).config = mergeSlotL b.config o.config := by
  unfold mergeHooks
  rw [(foldl_mergeNamed_fields o hookNames _).2.2]
  unfold mergeConfigStep mergeEventStep mergeToolStep mergeSlotL
  cases o.tool <;> cases o.event <;> cases o.config <;> simp

/-- The three leading steps leave the named slots untouched. -/
theorem mergeSteps_named {ι ε α : Type} (b o : Hooks ι ε α) :
    (mergeConfigStep (mergeEventStep (mergeToolStep b o) o) o).named =
      b.named := by
  unfold mergeConfigStep mergeEventStep mergeToolStep
  cases o.tool <;> cases o.event <;> cases o.config <;> simp

/-- The catalogue of named hook slots has no repeated name. -/
theorem hookNames_nodup : hookNames.Nodup := by decide

/-- Each catalogued named slot of the composed HookSet follows the
single-slot merge rule. -/
theorem mergeHooks_named_lookup {ι ε α : Type} (b o : Hooks ι ε α)
    (x : String) (hx : x ∈ hookNames) :
    lookupMap (mergeHooks b o).named x =
      mergeSlotL (lookupMap b.named x) (lookupMap o.named x) := by
  unfold mergeHooks
  rw [foldl_mergeNamed_lookup_mem o hookNames _ x hx hookNames_nodup,
    mergeSteps_named]

/-- Chained slots concatenate effect traces. -/
theorem traceOpt_mergeSlotL {ι ε : Type} (p q : Option (Callable ι ε))
    (i : ι) :
    traceOpt (mergeSlotL p q) i = traceOpt p i ++ traceOpt q i := by
  unfold mergeSlotL traceOpt chain
  cases p <;> cases q <;> simp

/-- C1: folding the composer over the sequence A, B, C yields, in every
sequential-notification slot (the event slot, the config slot, and each
catalogued named slot), a callable whose effect trace on any input is
the concatenation of A's, B's and C's traces, in exactly that order. -/
theorem mergeHooks_fold_sequential_order {ι ε α : Type}
    (A B C : Hooks ι ε α) :
    (∀ i, traceOpt (List.foldl mergeHooks A [B, C]).event i =
        traceOpt A.event i ++ traceOpt B.event i ++ traceOpt C.event i) ∧
    (∀ i, traceOpt (List.foldl mergeHooks A [B, C]).config i =
        traceOpt A.config i ++ traceOpt B.config i ++ traceOpt C.config i) ∧
    (∀ x, x ∈ hookNames → ∀ i,
      traceOpt (lookupMap (List.foldl mergeHooks A [B, C]).named x) i =
        traceOpt (lookupMap A.named x) i ++ traceOpt (lookupMap B.named x) i ++
          traceOpt (lookupMap C.named x) i) := by
  have hfold : List.foldl mergeHooks A [B, C] = mergeHooks (mergeHooks A B) C := by
    simp [List.foldl_cons]
  refine ⟨?_, ?_, ?_⟩
  · intro i
    rw [hfold, mergeHooks_event, mergeHooks_event, traceOpt_mergeSlotL,
      traceOpt_mergeSlotL]
  · intro i
    rw [hfold, mergeHooks_config, mergeHooks_config, traceOpt_mergeSlotL,
      traceOpt_mergeSlotL]
  · intro x hx i
    rw [hfold, mergeHooks_named_lookup _ _ x hx,
      mergeHooks_named_lookup _ _ x hx, traceOpt_mergeSlotL,
      traceOpt_mergeSlotL]

/-- C1 witness: the ordering theorem evaluated at three concrete hook
sets whose slots emit the tags 1, 2, 3 (event), 10, 20, 30 (config) and
100, 200, 300 (the chat.message slot). -/
theorem mergeHooks_fold_sequential_order_witness :
    traceOpt (List.foldl mergeHooks hwA [hwB, hwC]).event 0 = [1, 2, 3] ∧
    traceOpt (List.foldl mergeHooks hwA [hwB, hwC]).config 0 = [10, 20, 30] ∧
    traceOpt (lookupMap (List.foldl mergeHooks hwA [hwB, hwC]).named
      "chat.message") 0 = [100, 200, 300] := by
  have h := mergeHooks_fold_sequential_order hwA hwB hwC
  refine ⟨?_, ?_, ?_⟩
  · rw [h.1 0]; rfl
  · rw [h.2.1 0]; rfl
  · rw [h.2.2 "chat.message" (by decide) 0]; rfl

/-- C2: merging a HookSet with itself keeps the tool-map slot's
contents unchanged, while every present sequential slot becomes a
single callable that performs the original effect exactly twice in
sequence. -/
theorem mergeHooks_self_idempotent {ι ε α : Type} (H : Hooks ι ε α)
    (hwf : ∀ m, H.tool = some m → (m.map Prod.fst).Nodup) :
    ((mergeHooks H H).tool.isSome = H.tool.isSome ∧
      ∀ k, lookupTool (mergeHooks H H) k = lookupTool H k) ∧
    (∀ e, H.event = some e → ∃ f, (mergeHooks H H).event = some f ∧
      ∀ i, f i = e i ++ e i) ∧
    (∀ c, H.config = some c → ∃ f, (mergeHooks H H).config = some f ∧
      ∀ i, f i = c i ++ c i) ∧
    (∀ x, x ∈ hookNames → ∀ e, lookupMap H.named x = some e →
      ∃ f, lookupMap (mergeHooks H H).named x = some f ∧
        ∀ i, f i = e i ++ e i) := by
  refine ⟨⟨?_, ?_⟩, ?_, ?_, ?_⟩
  · rw [mergeHooks_tool]
    cases H.tool <;> simp
  · intro k
    unfold lookupTool
    rw [mergeHooks_tool]
    cases htool : H.tool with
    | none => simp
    | some m =>
        have hnd := hwf m htool
        simp only [Option.getD_some]
        rw [lookup_spreadTwo m m hnd k]
        unfold orElseO
        cases lookupMap m k <;> simp
  · intro e he
    rw [mergeHooks_event, he]
    exact ⟨chain e e, rfl, fun i => rfl⟩
  · intro c hc
    rw [mergeHooks_config, hc]
    exact ⟨chain c c, rfl, fun i => rfl⟩
  · intro x hx e he
    rw [mergeHooks_named_lookup _ _ x hx, he]
    exact ⟨chain e e, rfl, fun i => rfl⟩

/-- C2 witness: the idempotence theorem evaluated at a concrete hook
set; each sequential slot fires its effect twice, and the tool map is
unchanged. -/
theorem mergeHooks_self_idempotent_witness :
    lookupTool (mergeHooks hwA hwA) "x" = some 1 ∧
    traceOpt (mergeHooks hwA hwA).event 0 = [1, 1] ∧
    traceOpt (mergeHooks hwA hwA).config 0 = [10, 10] ∧
    traceOpt (lookupMap (mergeHooks hwA hwA).named "chat.message") 0 =
      [100, 100] := by
  have h := mergeHooks_self_idempotent hwA
    (by intro m hm; cases hm; decide)
  refine ⟨?_, ?_, ?_, ?_⟩
  · rw [h.1.2 "x"]; rfl
  · obtain ⟨f, hf, hfi⟩ := h.2.1 (fun _ => [1]) rfl
    rw [hf]; exact hfi 0
  · obtain ⟨f, hf, hfi⟩ := h.2.2.1 (fun _ => [10]) rfl
    rw [hf]; exact hfi 0
  · obtain ⟨f, hf, hfi⟩ := h.2.2.2 "chat.message" (by decide)
      (fun _ => [100]) rfl
    rw [hf]; exact hfi 0

/-- C10: the empty HookSet is a two-sided identity for the composer:
merging the empty set on the right returns the base unchanged in every
slot, and merging it on the left installs the other set's tool-map
contents and its callables unwrapped. -/
theorem mergeHooks_empty_identity {ι ε α : Type} (H : Hooks ι ε α)
    (hwf : ∀ m, H.tool = some m → (m.map Prod.fst).Nodup) :
    mergeHooks H emptyHooks = H ∧
    ((mergeHooks emptyHooks H).tool.isSome = H.tool.isSome ∧
      ∀ k, lookupTool (mergeHooks emptyHooks H) k = lookupTool H k) ∧
    (mergeHooks emptyHooks H).event = H.event ∧
    (mergeHooks emptyHooks H).config = H.config ∧
    (∀ x, x ∈ hookNames →
      lookupMap (mergeHooks emptyHooks H).named x = lookupMap H.named x) := by
  refine ⟨?_, ⟨?_, ?_⟩, ?_, ?_, ?_⟩
  · have hfold : ∀ (l : List String) (m : Hooks ι ε α),
        List.foldl (mergeNamed emptyHooks) m l = m := by
      intro l
      induction l with
      | nil => intro m; rfl
      | cons a l ih =>
          intro m
          rw [List.foldl_cons, ih]
          unfold mergeNamed emptyHooks
          simp [lookupMap]
    unfold mergeHooks
    rw [hfold]
    unfold mergeConfigStep mergeEventStep mergeToolStep emptyHooks
    simp
  · rw [mergeHooks_tool]
    cases H.tool <;> simp [emptyHooks]
  · intro k
    unfold lookupTool
    rw [mergeHooks_tool]
    cases htool : H.tool with
    | none => simp [emptyHooks]
    | some m =>
        have hnd := hwf m htool
        simp only [emptyHooks, Option.getD_none]
        rw [lookup_spreadTwo m [] hnd k]
        unfold orElseO
        cases lookupMap m k <;> simp [lookupMap]
  · rw [mergeHooks_event]
    unfold mergeSlotL emptyHooks
    cases H.event <;> simp
  · rw [mergeHooks_config]
    unfold mergeSlotL emptyHooks
    cases H.config <;> simp
  · intro x hx
    rw [mergeHooks_named_lookup _ _ x hx]
    unfold mergeSlotL emptyHooks
    cases lookupMap H.named x <;> simp [lookupMap]

/-- The frame property is reflexive. -/
theorem frameExt_refl {ι ε α : Type} (s : Store ι ε α) : FrameExt s s :=
  ⟨le_refl _, fun _ _ => rfl, le_refl _, fun _ _ => rfl⟩

/-- Allocating an object preserves every existing cell. -/
theorem frameExt_allocObj {ι ε α : Type} {s0 s : Store ι ε α}
    (h : FrameExt s0 s) (ob : HooksObj ι ε α) :
    FrameExt s0 (allocObj s ob).1 := by
  obtain ⟨h1, h2, h3, h4⟩ := h
  refine ⟨?_, ?_, h3, h4⟩
  · simp only [allocObj, List.length_append, List.length_cons,
      List.length_nil]
    omega
  · intro i hi
    simp only [allocObj]
    rw [List.getElem?_append, if_pos (lt_of_lt_of_le hi h1)]
    exact h2 i hi

/-- Allocating a map preserves every existing cell. -/
theorem frameExt_allocMap {ι ε α : Type} {s0 s : Store ι ε α}
    (h : FrameExt s0 s) (m : List (String × α)) :
    FrameExt s0 (allocMap s m).1 := by
  obtain ⟨h1, h2, h3, h4⟩ := h
  refine ⟨h1, h2, ?_, ?_⟩
  · simp only [allocMap, List.length_append, List.length_cons,
      List.length_nil]
    omega
  · intro j hj
    simp only [allocMap]
    rw [List.getElem?_append, if_pos (lt_of_lt_of_le hj h3)]
    exact h4 j hj

/-- Updating an object past the original frontier preserves every
original cell. -/
theorem frameExt_updObj {ι ε α : Type} {s0 s : Store ι ε α} {r : Nat}
    (h : FrameExt s0 s) (hr : s0.objs.length ≤ r)
    (f : HooksObj ι ε α → HooksObj ι ε α) :
    FrameExt s0 (updObj s r f) := by
  obtain ⟨h1, h2, h3, h4⟩ := h
  unfold updObj
  cases hob : s.objs[r]? with
  | none => exact ⟨h1, h2, h3, h4⟩
  | some ob =>
      refine ⟨?_, ?_, h3, h4⟩
      · simpa [List.length_set] using h1
      · intro i hi
        simp only
        rw [List.getElem?_set_ne (by omega : r ≠ i)]
        exact h2 i hi

/-- The store-level named-slot loop preserves every original cell. -/
theorem frameExt_foldl_mergeNamedS {ι ε α : Type} {s0 : Store ι ε α}
    {r : Nat} (other : HooksObj ι ε α) (hr : s0.objs.length ≤ r)
    (l : List String) :
    ∀ s : Store ι ε α, FrameExt s0 s →
      FrameExt s0 (List.foldl (mergeNamedS other r) s l) := by
  induction l with
  | nil => intro s h; exact h
  | cons a l ih =>
      intro s h
      rw [List.foldl_cons]
      refine ih _ ?_
      unfold mergeNamedS
      cases lookupMap other.named a with
      | none => exact h
      | some next => exact frameExt_updObj h hr _

/-- The store-level tool step preserves every original cell when it
writes past the original frontier. -/
theorem frameExt_toolStepS {ι ε α : Type} {s0 s : Store ι ε α} {r : Nat}
    (base other : HooksObj ι ε α) (h : FrameExt s0 s)
    (hr : s0.objs.length ≤ r) {s2 : Store ι ε α}
    (hstep : toolStepS base other s r = some s2) : FrameExt s0 s2 := by
  unfold toolStepS at hstep
  cases hot : other.tool with
  | none =>
      rw [hot] at hstep
      cases hstep
      exact h
  | some otr =>
      rw [hot] at hstep
      simp only at hstep
      cases hom : s.maps[otr]? with
      | none => rw [hom] at hstep; cases hstep
      | some om =>
          rw [hom] at hstep
          simp only at hstep
          cases hbm : (match base.tool with
              | none => some ([] : List (String × α))
              | some btr => s.maps[btr]?) with
          | none => rw [hbm] at hstep; cases hstep
          | some bm =>
              rw [hbm] at hstep
              simp only at hstep
              cases hstep
              exact frameExt_updObj (frameExt_allocMap h _) hr _

/-- The store-level event step preserves every original cell when it
writes past the original frontier. -/
theorem frameExt_eventStepS {ι ε α : Type} {s0 s : Store ι ε α} {r : Nat}
    (other : HooksObj ι ε α) (h : FrameExt s0 s)
    (hr : s0.objs.length ≤ r) : FrameExt s0 (eventStepS other r s) := by
  unfold eventStepS
  cases other.event with
  | none => exact h
  | some next => exact frameExt_updObj h hr _

/-- The store-level config step preserves every original cell when it
writes past the original frontier. -/
theorem frameExt_configStepS {ι ε α : Type} {s0 s : Store ι ε α} {r : Nat}
    (other : HooksObj ι ε α) (h : FrameExt s0 s)
    (hr : s0.objs.length ≤ r) : FrameExt s0 (configStepS other r s) := by
  unfold configStepS
  cases other.config with
  | none => exact h
  | some next => exact frameExt_updObj h hr _

/-- C3: the store-level composer never mutates either input HookSet
object nor any pre-existing tool map; the merged result is a freshly
allocated object (its reference lies past every original one). -/
theorem mergeHooksS_no_mutation {ι ε α : Type} (s0 : Store ι ε α)
    (b o : Nat) (s' : Store ι ε α) (r : Nat)
    (h : mergeHooksS s0 b o = some (s', r)) :
    r = s0.objs.length ∧
    (∀ i, i < s0.objs.length → s'.objs[i]? = s0.objs[i]?) ∧
    (∀ j, j < s0.maps.length → s'.maps[j]? = s0.maps[j]?) ∧
    s'.objs[b]? = s0.objs[b]? ∧
    s'.objs[o]? = s0.objs[o]? := by
  unfold mergeHooksS at h
  cases hb : s0.objs[b]? with
  | none => rw [hb] at h; cases h
  | some base =>
  rw [hb] at h
  cases ho : s0.objs[o]? with
  | none => rw [ho] at h; cases h
  | some other =>
  rw [ho] at h
  simp only at h
  cases hstep : toolStepS base other (allocObj s0 base).1 (allocObj s0 base).2 with
  | none => rw [hstep] at h; cases h
  | some s2 =>
  rw [hstep] at h
  simp only [Option.some_inj, Prod.mk.injEq] at h
  obtain ⟨hs', hr⟩ := h
  have hblen : b < s0.objs.length := by
    by_contra hcon
    rw [List.getElem?_eq_none (by omega)] at hb
    cases hb
  have holen : o < s0.objs.length := by
    by_contra hcon
    rw [List.getElem?_eq_none (by omega)] at ho
    cases ho
  have hrval : (allocObj s0 base).2 = s0.objs.length := rfl
  have h2 : FrameExt s0 s2 :=
    frameExt_toolStepS base other
      (frameExt_allocObj (frameExt_refl s0) base)
      (by rw [hrval]) hstep
  have h5 : FrameExt s0 s' := by
    rw [← hs']
    refine frameExt_foldl_mergeNamedS other (by rw [hrval]) hookNames _ ?_
    exact frameExt_configStepS other
      (frameExt_eventStepS other h2 (by rw [hrval])) (by rw [hrval])
  obtain ⟨_, hobjs, _, hmaps⟩ := h5
  exact ⟨by rw [← hr, hrval], hobjs, hmaps, (hobjs b hblen).trans hb,
    (hobjs o holen).trans ho⟩

/-- C3 witness: the frame theorem evaluated on the concrete store; the
merged object lands in the fresh cell 2 and both inputs (and the maps
they point at) read back unchanged. -/
theorem mergeHooksS_no_mutation_witness :
    mergeHooksS sw0 0 1 = some (sw1, 2) ∧
    sw1.objs[0]? = sw0.objs[0]? ∧
    sw1.objs[1]? = sw0.objs[1]? ∧
    sw1.maps[0]? = sw0.maps[0]? ∧
    sw1.maps[1]? = sw0.maps[1]? := by
  have heq : mergeHooksS sw0 0 1 = some (sw1, 2) := rfl
  have h := mergeHooksS_no_mutation sw0 0 1 sw1 2 heq
  exact ⟨heq, h.2.2.2.1, h.2.2.2.2, h.2.2.1 0 (by norm_num [sw0]),
    h.2.2.1 1 (by norm_num [sw0])⟩

/-- C4: when no header block is recognised, the parser returns the
empty metadata map and the raw input unchanged, with no trimming;
moreover any document that does not begin with three hyphens is never
recognised. -/
theorem parseFrontmatter_fallback_raw (d : List Char) :
    (matchHeader d = none → parseFrontmatter d = ([], d)) ∧
    ((∀ rest : List Char, d ≠ '-' :: '-' :: '-' :: rest) →
      matchHeader d = none) := by
  constructor
  · intro h
    unfold parseFrontmatter
    rw [h]
  · intro h
    cases hm : matchHeader d with
    | none => rfl
    | some p =>
        exfalso
        unfold matchHeader at hm
        split at hm
        · exact h _ rfl
        · cases hm

/-- C4 witness: the fallback theorem evaluated on a concrete document
without a header. -/
theorem parseFrontmatter_fallback_raw_witness :
    parseFrontmatter ("hello world".data) = ([], "hello world".data) :=
  (parseFrontmatter_fallback_raw ("hello world".data)).1 rfl

/-- C5 counterexample: on a well-formed document whose body text after
the closing delimiter is a space, an x and a space, the parser returns
that text exactly; it differs from its trimmed form, refuting the
claim that the returned body is trimmed. -/
theorem parseFrontmatter_body_trim_cex :
    (parseFrontmatter ("---\na: 1\n---\n x ".data)).2 = " x ".data ∧
    trimList (" x ".data) = "x".data ∧
    (parseFrontmatter ("---\na: 1\n---\n x ".data)).2 ≠
      trimList (" x ".data) := by
  refine ⟨rfl, rfl, ?_⟩
  decide

/-- A scan region free of closing delimiters splits exactly at the
appended closing delimiter. -/
theorem splitAtClose_exact (g t : List Char)
    (h : freeOfClose g ('\n' :: '-' :: '-' :: '-' :: t) = true) :
    splitAtClose (g ++ '\n' :: '-' :: '-' :: '-' :: t) = some (g, t) := by
  induction g with
  | nil => simp [splitAtClose, isCloseHead, dropClose]
  | cons c g' ih =>
      simp only [freeOfClose, Bool.and_eq_true, Bool.not_eq_true'] at h
      rw [List.cons_append]
      unfold splitAtClose
      rw [h.1, ih h.2]
      simp

/-- C5 amended: for a well-formed document, the returned body is
exactly the text after the closing delimiter's line terminator, with
no trimming applied (the loaders trim later). -/
theorem parseFrontmatter_body_untrimmed (g b : List Char)
    (h : freeOfClose g ('\n' :: '-' :: '-' :: '-' :: '\n' :: b) = true) :
    parseFrontmatter
        ('-' :: '-' :: '-' :: '\n' ::
          (g ++ '\n' :: '-' :: '-' :: '-' :: '\n' :: b)) =
      (parseHeaderLines g, b) := by
  have hm : matchHeader
      ('-' :: '-' :: '-' :: '\n' ::
        (g ++ '\n' :: '-' :: '-' :: '-' :: '\n' :: b)) = some (g, b) := by
    calc matchHeader ('-' :: '-' :: '-' :: '\n' ::
          (g ++ '\n' :: '-' :: '-' :: '-' :: '\n' :: b))
        = (match splitAtClose (g ++ '\n' :: '-' :: '-' :: '-' :: '\n' :: b) with
            | none => none
            | some (g1, t) => some (g1, eatNl t)) := rfl
      _ = some (g, eatNl ('\n' :: b)) := by
            rw [splitAtClose_exact g ('\n' :: b) h]
      _ = some (g, b) := rfl
  unfold parseFrontmatter
  rw [hm]

/-- C5 amended witness: the untrimmed-body theorem evaluated on the
counterexample document. -/
theorem parseFrontmatter_body_untrimmed_witness :
    parseFrontmatter
        ('-' :: '-' :: '-' :: '\n' ::
          ("a: 1".data ++ '\n' :: '-' :: '-' :: '-' :: '\n' :: " x ".data)) =
      (parseHeaderLines ("a: 1".data), " x ".data) :=
  parseFrontmatter_body_untrimmed ("a: 1".data) (" x ".data) (by decide)

/-- C6 counterexample: a well-formed block preceded by a single line
terminator is not recognised (the parser takes the fallback path),
although the claim says it is; and a document whose closing hyphens
are followed by further text on the same line is recognised, although
the claim says it falls back. -/
theorem header_detection_cex :
    matchHeader ('\n' :: "---\na: 1\n---\nx".data) = none ∧
    parseFrontmatter ('\n' :: "---\na: 1\n---\nx".data) =
      ([], '\n' :: "---\na: 1\n---\nx".data) ∧
    (matchHeader ("---\na: 1\n---\nx".data)).isSome = true ∧
    (matchHeader ("---\na: 1\n--- trailing\nx".data)).isSome = true :=
  ⟨rfl, rfl, rfl, rfl⟩

/-- The close scanner succeeds exactly when a line terminator followed
by three hyphens occurs in the region. -/
theorem splitAtClose_isSome_iff (s : List Char) :
    (splitAtClose s).isSome = true ↔
      ∃ g t, s = g ++ '\n' :: '-' :: '-' :: '-' :: t := by
  constructor
  · intro h
    induction s with
    | nil => simp [splitAtClose] at h
    | cons c cs ih =>
        unfold splitAtClose at h
        by_cases hc : isCloseHead (c :: cs) = true
        · rw [if_pos hc] at h
          unfold isCloseHead at hc
          split at hc
          · rename_i tl heq
            exact ⟨['\r'], tl, heq⟩
          · rename_i tl heq
            exact ⟨[], tl, heq⟩
          · cases hc
        · rw [if_neg hc] at h
          cases hrec : splitAtClose cs with
          | none => rw [hrec] at h; cases h
          | some p =>
              obtain ⟨g, t, hgt⟩ := ih (by rw [hrec]; rfl)
              exact ⟨c :: g, t, by rw [hgt]; rfl⟩
  · rintro ⟨g, t, rfl⟩
    induction g with
    | nil => simp [splitAtClose, isCloseHead]
    | cons c g' ih =>
        rw [List.cons_append]
        unfold splitAtClose
        by_cases hc : isCloseHead (c :: (g' ++ '\n' :: '-' :: '-' :: '-' :: t)) = true
        · rw [if_pos hc]; rfl
        · rw [if_neg hc]
          cases hrec : splitAtClose (g' ++ '\n' :: '-' :: '-' :: '-' :: t) with
          | none => rw [hrec] at ih; cases ih
          | some p =>
              obtain ⟨pg, pr⟩ := p
              rfl

/-- C6 amended: a header block is recognised exactly when the document
itself begins with three hyphens and a line terminator, and a later
line begins with three hyphens; the closing hyphens need not occupy
their line alone, and a document beginning with a line terminator is
never recognised. -/
theorem matchHeader_amended (d : List Char) :
    (matchHeader d).isSome = true ↔
      ∃ rest g t,
        (d = '-' :: '-' :: '-' :: '\r' :: '\n' :: rest ∨
          d = '-' :: '-' :: '-' :: '\n' :: rest) ∧
        rest = g ++ '\n' :: '-' :: '-' :: '-' :: t := by
  constructor
  · intro h
    simp only [matchHeader] at h
    split at h
    · rename_i rest
      split at h
      · cases h
      · rename_i r heq
        split at heq
        · rename_i x
          cases heq
          cases hs : splitAtClose r with
          | none => rw [hs] at h; cases h
          | some p =>
              obtain ⟨g, t, hgt⟩ :=
                (splitAtClose_isSome_iff r).1 (by rw [hs]; rfl)
              exact ⟨r, g, t, Or.inl rfl, hgt⟩
        · rename_i x
          cases heq
          cases hs : splitAtClose r with
          | none => rw [hs] at h; cases h
          | some p =>
              obtain ⟨g, t, hgt⟩ :=
                (splitAtClose_isSome_iff r).1 (by rw [hs]; rfl)
              exact ⟨r, g, t, Or.inr rfl, hgt⟩
        · cases heq
    · cases h
  · rintro ⟨rest, g, t, hor, hrest⟩
    have hsome : (splitAtClose rest).isSome = true :=
      (splitAtClose_isSome_iff rest).2 ⟨g, t, hrest⟩
    cases hor with
    | inl hd =>
        subst hd
        unfold matchHeader
        cases hs : splitAtClose rest with
        | none => rw [hs] at hsome; cases hsome
        | some p => simp [hs]
    | inr hd =>
        subst hd
        unfold matchHeader
        cases hs : splitAtClose rest with
        | none => rw [hs] at hsome; cases hsome
        | some p => simp [hs]

/-- The head test agrees with the head of the list. -/
theorem headIs_true_iff (s : List Char) (c : Char) :
    headIs s c = true ↔ s.head? = some c := by
  cases s <;> simp [headIs]

/-- The last-character test agrees with the last element. -/
theorem lastIs_true_iff (s : List Char) (c : Char) :
    lastIs s c = true ↔ s.getLast? = some c := by
  unfold lastIs
  cases h : s.getLast? <;> simp

/-- The operational quote fallback equals its declarative phrasing. -/
theorem quoteOrPlain_eq (s : List Char) :
    quoteOrPlain s =
      if (s.head? = some '"' ∧ s.getLast? = some '"') ∨
          (s.head? = some '\'' ∧ s.getLast? = some '\'') then
        Value.str ((s.drop 1).dropLast)
      else Value.str s := by
  unfold quoteOrPlain
  by_cases hq : (s.head? = some '"' ∧ s.getLast? = some '"') ∨
      (s.head? = some '\'' ∧ s.getLast? = some '\'')
  · have hb : ((headIs s '"' && lastIs s '"') ||
        (headIs s '\'' && lastIs s '\'')) = true := by
      simp only [Bool.or_eq_true, Bool.and_eq_true, headIs_true_iff,
        lastIs_true_iff]
      exact hq
    rw [if_pos hb, if_pos hq]
  · have hb : ¬ (((headIs s '"' && lastIs s '"') ||
        (headIs s '\'' && lastIs s '\'')) = true) := by
      simp only [Bool.or_eq_true, Bool.and_eq_true, headIs_true_iff,
        lastIs_true_iff]
      exact hq
    rw [if_neg hb, if_neg hq]

/-- C7 counterexample: the value Infinity is converted to a number by
the coercion (the source tests for NaN, not finiteness), while the
claim's precedence demands the non-finite value fall through to the
trimmed-string clause. -/
theorem parseValue_infinity_cex :
    parseValue ("Infinity".data) = Value.num (JsNum.inf false) ∧
    claimValueC7 ("Infinity".data) = Value.str ("Infinity".data) ∧
    parseValue ("Infinity".data) ≠ claimValueC7 ("Infinity".data) := by
  refine ⟨rfl, rfl, fun h => ?_⟩
  have h2 : Value.num (JsNum.inf false) = Value.str ("Infinity".data) := h
  exact Value.noConfusion h2

/-- C7 amended: the coercion applies exactly this precedence: boolean
literals; then any value whose numeric conversion is not NaN and that
is not merely whitespace becomes a number, finite or not; then a value
whose first and last characters are the same quote character (a lone
quote qualifies) has them stripped; otherwise the value is kept
exactly as given, untrimmed. -/
theorem parseValue_amended_eq (s : List Char) :
    parseValue s = specValueAmended s := by
  unfold parseValue specValueAmended
  by_cases h1 : s = "true".data
  · rw [if_pos h1, if_pos h1]
  rw [if_neg h1, if_neg h1]
  by_cases h2 : s = "false".data
  · rw [if_pos h2, if_pos h2]
  rw [if_neg h2, if_neg h2]
  cases hn : jsStrToNum s with
  | none =>
      have hcond : ¬ ((none : Option JsNum) ≠ none ∧ trimList s ≠ []) := by
        simp
      change quoteOrPlain s = _
      rw [if_neg hcond, quoteOrPlain_eq]
  | some n =>
      change (if (trimList s).isEmpty = true then quoteOrPlain s
        else Value.num n) = _
      by_cases ht : (trimList s).isEmpty
      · have hcond : ¬ ((some n : Option JsNum) ≠ none ∧ trimList s ≠ []) := by
          rw [List.isEmpty_iff] at ht
          simp [ht]
        rw [if_pos ht, if_neg hcond, quoteOrPlain_eq]
      · have hcond : (some n : Option JsNum) ≠ none ∧ trimList s ≠ [] := by
          refine ⟨by simp, ?_⟩
          simpa [List.isEmpty_iff] using ht
        rw [if_neg ht, if_pos hcond]
        rfl

/-- C10 witness: the identity theorem evaluated at a concrete hook
set, checked slot by slot. -/
theorem mergeHooks_empty_identity_witness :
    mergeHooks hwA emptyHooks = hwA ∧
    lookupTool (mergeHooks emptyHooks hwA) "x" = some 1 ∧
    (mergeHooks emptyHooks hwA).event = hwA.event ∧
    (mergeHooks emptyHooks hwA).config = hwA.config ∧
    lookupMap (mergeHooks emptyHooks hwA).named "chat.message" =
      lookupMap hwA.named "chat.message" := by
  have h := mergeHooks_empty_identity hwA
    (by intro m hm; cases hm; decide)
  refine ⟨h.1, ?_, h.2.2.1, h.2.2.2.1, h.2.2.2.2 "chat.message" (by decide)⟩
  rw [h.2.1.2 "x"]; rfl

/-- The per-file step appends a created path only when it also copies
it. -/
theorem fileStep_created_sub (ow : Bool) (p : InstPath)
    (st : List InstPath × InstCtx) (h : st.2.created ⊆ st.2.copied) :
    (fileStep ow p st).2.created ⊆ (fileStep ow p st).2.copied := by
  unfold fileStep
  split_ifs with h1 h2
  · exact h
  · intro q hq
    exact List.mem_append_left _ (h hq)
  · intro q hq
    rcases List.mem_append.mp hq with h3 | h3
    · exact List.mem_append_left _ (h h3)
    · exact List.mem_append_right _ h3

/-- The walk only ever appends created paths that it also copies. -/
theorem runList_created_sub (ow : Bool) (es : List FS) (d : InstPath)
    (st : List InstPath × InstCtx) :
    st.2.created ⊆ st.2.copied →
      (runList ow es d st).2.created ⊆ (runList ow es d st).2.copied := by
  induction es, d, st using runList.induct ow with
  | case1 d st =>
      intro h
      rw [runList]
      exact h
  | case2 n rest d st ih =>
      intro h
      rw [runList]
      exact ih (fileStep_created_sub ow (d ++ [n]) st h)
  | case3 n sub rest d st ih1 ih2 =>
      intro h
      rw [runList]
      exact ih2 (ih1 h)

/-- The per-file step either leaves the copied list alone or appends
the visited path. -/
theorem fileStep_copied (ow : Bool) (p : InstPath)
    (st : List InstPath × InstCtx) :
    (fileStep ow p st).2.copied = st.2.copied ∨
      (fileStep ow p st).2.copied = st.2.copied ++ [p] := by
  unfold fileStep
  split_ifs <;> simp

/-- The per-file step either leaves the skipped list alone or appends
the visited path. -/
theorem fileStep_skipped (ow : Bool) (p : InstPath)
    (st : List InstPath × InstCtx) :
    (fileStep ow p st).2.skipped = st.2.skipped ∨
      (fileStep ow p st).2.skipped = st.2.skipped ++ [p] := by
  unfold fileStep
  split_ifs <;> simp

/-- The per-file step never records the visited path in both lists. -/
theorem fileStep_not_both (ow : Bool) (p : InstPath)
    (st : List InstPath × InstCtx) :
    ((fileStep ow p st).2.copied = st.2.copied ∧
      (fileStep ow p st).2.skipped = st.2.skipped ++ [p]) ∨
    ((fileStep ow p st).2.copied = st.2.copied ++ [p] ∧
      (fileStep ow p st).2.skipped = st.2.skipped) := by
  unfold fileStep
  split_ifs <;> simp

/-- Any copied or skipped path of a walk was already recorded or is a
file path the walk visits. -/
theorem runList_domain (ow : Bool) (es : List FS) (d : InstPath)
    (st : List InstPath × InstCtx) :
    (∀ p, p ∈ (runList ow es d st).2.copied →
      p ∈ st.2.copied ∨ p ∈ filePaths d es) ∧
    (∀ p, p ∈ (runList ow es d st).2.skipped →
      p ∈ st.2.skipped ∨ p ∈ filePaths d es) := by
  induction es, d, st using runList.induct ow with
  | case1 d st =>
      rw [runList]
      exact ⟨fun p hp => Or.inl hp, fun p hp => Or.inl hp⟩
  | case2 n rest d st ih =>
      rw [runList]
      constructor
      · intro p hp
        rcases ih.1 p hp with h1 | h1
        · rcases fileStep_copied ow (d ++ [n]) st with hc | hc
          · rw [hc] at h1
            exact Or.inl h1
          · rw [hc] at h1
            rcases List.mem_append.mp h1 with h2 | h2
            · exact Or.inl h2
            · exact Or.inr (by
                simp only [filePaths, List.mem_cons]
                exact Or.inl (List.mem_singleton.mp h2))
        · exact Or.inr (by
            simp only [filePaths, List.mem_cons]
            exact Or.inr h1)
      · intro p hp
        rcases ih.2 p hp with h1 | h1
        · rcases fileStep_skipped ow (d ++ [n]) st with hc | hc
          · rw [hc] at h1
            exact Or.inl h1
          · rw [hc] at h1
            rcases List.mem_append.mp h1 with h2 | h2
            · exact Or.inl h2
            · exact Or.inr (by
                simp only [filePaths, List.mem_cons]
                exact Or.inl (List.mem_singleton.mp h2))
        · exact Or.inr (by
            simp only [filePaths, List.mem_cons]
            exact Or.inr h1)
  | case3 n sub rest d st ih1 ih2 =>
      rw [runList]
      constructor
      · intro p hp
        rcases ih2.1 p hp with h1 | h1
        · rcases ih1.1 p h1 with h2 | h2
          · exact Or.inl h2
          · exact Or.inr (by
              simp only [filePaths, List.mem_append]
              exact Or.inl h2)
        · exact Or.inr (by
            simp only [filePaths, List.mem_append]
            exact Or.inr h1)
      · intro p hp
        rcases ih2.2 p hp with h1 | h1
        · rcases ih1.2 p h1 with h2 | h2
          · exact Or.inl h2
          · exact Or.inr (by
              simp only [filePaths, List.mem_append]
              exact Or.inl h2)
        · exact Or.inr (by
            simp only [filePaths, List.mem_append]
            exact Or.inr h1)

/-- With duplicate-free visited paths that are fresh for the incoming
report, the walk keeps the copied and skipped lists disjoint. -/
theorem runList_disjoint (ow : Bool) (es : List FS) (d : InstPath)
    (st : List InstPath × InstCtx) :
    (filePaths d es).Nodup →
    (∀ p, p ∈ filePaths d es → p ∉ st.2.copied ∧ p ∉ st.2.skipped) →
    DisjL st.2.copied st.2.skipped →
    DisjL (runList ow es d st).2.copied (runList ow es d st).2.skipped := by
  induction es, d, st using runList.induct ow with
  | case1 d st =>
      intro _ _ hdisj
      rw [runList]
      exact hdisj
  | case2 n rest d st ih =>
      intro hnd hc hdisj
      rw [runList]
      simp only [filePaths, List.nodup_cons] at hnd
      have hfresh := hc (d ++ [n]) (by simp [filePaths])
      refine ih hnd.2 ?_ ?_
      · intro p hp
        have hne : p ≠ d ++ [n] := fun he => hnd.1 (he ▸ hp)
        have hpold := hc p (by simp [filePaths, hp])
        constructor
        · rcases fileStep_copied ow (d ++ [n]) st with hcc | hcc <;> rw [hcc]
          · exact hpold.1
          · intro hmem
            rcases List.mem_append.mp hmem with h2 | h2
            · exact hpold.1 h2
            · exact hne (List.mem_singleton.mp h2)
        · rcases fileStep_skipped ow (d ++ [n]) st with hcc | hcc <;> rw [hcc]
          · exact hpold.2
          · intro hmem
            rcases List.mem_append.mp hmem with h2 | h2
            · exact hpold.2 h2
            · exact hne (List.mem_singleton.mp h2)
      · rcases fileStep_not_both ow (d ++ [n]) st with ⟨hcc, hcs⟩ | ⟨hcc, hcs⟩ <;>
          rw [hcc, hcs] <;> intro q hq1 hq2
        · rcases List.mem_append.mp hq2 with h2 | h2
          · exact hdisj q hq1 h2
          · exact hfresh.1 ((List.mem_singleton.mp h2) ▸ hq1)
        · rcases List.mem_append.mp hq1 with h2 | h2
          · exact hdisj q h2 hq2
          · exact hfresh.2 ((List.mem_singleton.mp h2) ▸ hq2)
  | case3 n sub rest d st ih1 ih2 =>
      intro hnd hc hdisj
      rw [runList]
      simp only [filePaths] at hnd
      have hndsub := (List.nodup_append.mp hnd).1
      have hndrest := (List.nodup_append.mp hnd).2.1
      have hsep := (List.nodup_append.mp hnd).2.2
      have hinner := ih1 hndsub
        (fun p hp => hc p (by simp [filePaths, hp]))
        hdisj
      refine ih2 hndrest ?_ hinner
      intro p hp
      have hnotsub : p ∉ filePaths (d ++ [n]) sub := fun hmem =>
        hsep hmem (by simp [hp])
      have hpold := hc p (by simp [filePaths, hp])
      constructor
      · intro hmem
        rcases (runList_domain ow sub (d ++ [n])
            ((d ++ [n]) :: st.1, st.2)).1 p hmem with h2 | h2
        · exact hpold.1 h2
        · exact hnotsub h2
      · intro hmem
        rcases (runList_domain ow sub (d ++ [n])
            ((d ++ [n]) :: st.1, st.2)).2 p hmem with h2 | h2
        · exact hpold.2 h2
        · exact hnotsub h2

/-- Every visited file path extends the walk's base path. -/
theorem filePaths_decomp (d : InstPath) (es : List FS) :
    ∀ p, p ∈ filePaths d es → ∃ t, p = d ++ t := by
  induction d, es using filePaths.induct with
  | case1 d => simp [filePaths]
  | case2 d n rest ih =>
      intro p hp
      simp only [filePaths, List.mem_cons] at hp
      rcases hp with h | h
      · exact ⟨[n], h⟩
      · exact ih p h
  | case3 d n sub rest ih1 ih2 =>
      intro p hp
      simp only [filePaths, List.mem_append] at hp
      rcases hp with h | h
      · obtain ⟨t, ht⟩ := ih1 p h
        exact ⟨[n] ++ t, by rw [ht, List.append_assoc]⟩
      · exact ih2 p h

/-- The install loop preserves that created paths were copied. -/
theorem foldl_installStep_created (ow : Bool)
    (src : List (String × List FS)) :
    ∀ (rem : List String) (st : List InstPath × InstCtx),
      st.2.created ⊆ st.2.copied →
      (rem.foldl (installStep ow src) st).2.created ⊆
        (rem.foldl (installStep ow src) st).2.copied := by
  intro rem
  induction rem with
  | nil => intro st h; exact h
  | cons dir rem ih =>
      intro st h
      rw [List.foldl_cons]
      refine ih _ ?_
      unfold installStep
      cases lookupMap src dir with
      | none => exact h
      | some entries => exact runList_created_sub _ _ _ _ h

/-- With duplicate-free directories and well-formed source trees, the
install loop keeps the copied and skipped lists disjoint. -/
theorem foldl_installStep_disjoint (ow : Bool)
    (src : List (String × List FS))
    (hsrc : ∀ dr es, lookupMap src dr = some es →
      (filePaths [".opencode", dr] es).Nodup) :
    ∀ (rem : List String) (st : List InstPath × InstCtx), rem.Nodup →
      DisjL st.2.copied st.2.skipped →
      (∀ dr, dr ∈ rem → ∀ es, lookupMap src dr = some es →
        ∀ p, p ∈ filePaths [".opencode", dr] es →
          p ∉ st.2.copied ∧ p ∉ st.2.skipped) →
      DisjL (rem.foldl (installStep ow src) st).2.copied
        (rem.foldl (installStep ow src) st).2.skipped := by
  intro rem
  induction rem with
  | nil => intro st _ hdisj _; exact hdisj
  | cons dir rem ih =>
      intro st hnd hdisj hfresh
      rw [List.foldl_cons]
      simp only [List.nodup_cons] at hnd
      refine ih _ hnd.2 ?_ ?_
      · unfold installStep
        cases hlk : lookupMap src dir with
        | none => exact hdisj
        | some entries =>
            exact runList_disjoint ow entries _ _ (hsrc dir entries hlk)
              (fun p hp =>
                hfresh dir (List.mem_cons_self dir rem) entries hlk p hp)
              hdisj
      · intro dr hdr es hes p hp
        have hold := hfresh dr (List.mem_cons_of_mem _ hdr) es hes p hp
        have hdne : dr ≠ dir := fun he => hnd.1 (he ▸ hdr)
        unfold installStep
        cases hlk : lookupMap src dir with
        | none => exact hold
        | some entries =>
            have hnotin : p ∉ filePaths [".opencode", dir] entries := by
              intro hmem
              obtain ⟨t, ht⟩ := filePaths_decomp _ _ p hmem
              obtain ⟨t', ht'⟩ := filePaths_decomp _ _ p hp
              rw [ht] at ht'
              simp only [List.cons_append, List.nil_append,
                List.cons.injEq] at ht'
              exact hdne ht'.2.1.symm
            constructor
            · intro hmem
              rcases (runList_domain ow entries _ _).1 p hmem with h2 | h2
              · exact hold.1 h2
              · exact hnotin h2
            · intro hmem
              rcases (runList_domain ow entries _ _).2 p hmem with h2 | h2
              · exact hold.2 h2
              · exact hnotin h2

/-- C8 counterexample: with the duplicated directory list, the single
source file's destination path is copied by the first pass and skipped
by the second, so the same path appears in both lists of one install
pass, refuting the claim for arbitrary dirs lists. -/
theorem install_copied_skipped_cex :
    ([".opencode", "agents", "a.md"] : InstPath) ∈
      (installExtensions ["agents", "agents"] false
        [("agents", [FS.file "a.md"])] []).copied ∧
    ([".opencode", "agents", "a.md"] : InstPath) ∈
      (installExtensions ["agents", "agents"] false
        [("agents", [FS.file "a.md"])] []).skipped := by
  have h : installExtensions ["agents", "agents"] false
      [("agents", [FS.file "a.md"])] [] =
      ⟨[[".opencode", "agents", "a.md"]], [[".opencode", "agents", "a.md"]],
        [[".opencode", "agents", "a.md"]]⟩ := by
    simp [installExtensions, installStep, runList, fileStep, lookupMap]
  rw [h]
  exact ⟨List.mem_singleton.mpr rfl, List.mem_singleton.mpr rfl⟩

/-- C8 amended: in every install pass the created paths are a subset
of the copied paths; and provided the requested directory list has no
duplicate entry and each source tree visits no destination file path
twice (as real directories guarantee), the copied and skipped lists
are disjoint. -/
theorem installExtensions_report_invariants (dirs : List String)
    (ow : Bool) (src : List (String × List FS)) (dest0 : List InstPath) :
    (installExtensions dirs ow src dest0).created ⊆
      (installExtensions dirs ow src dest0).copied ∧
    (dirs.Nodup →
      (∀ dr es, lookupMap src dr = some es →
        (filePaths [".opencode", dr] es).Nodup) →
      DisjL (installExtensions dirs ow src dest0).copied
        (installExtensions dirs ow src dest0).skipped) := by
  constructor
  · unfold installExtensions
    refine foldl_installStep_created ow src dirs (dest0, ⟨[], [], []⟩) ?_
    intro q hq
    exact absurd hq (List.not_mem_nil q)
  · intro hnd hsrc
    unfold installExtensions
    refine foldl_installStep_disjoint ow src hsrc dirs (dest0, ⟨[], [], []⟩)
      hnd ?_ ?_
    · intro q h1 _
      exact absurd h1 (List.not_mem_nil q)
    · intro dr _ es _ p _
      exact ⟨List.not_mem_nil p, List.not_mem_nil p⟩

/-- C8 amended witness: the invariants evaluated on a concrete install
pass with distinct directories. -/
theorem installExtensions_report_invariants_witness :
    (installExtensions ["agents", "commands"] false
      [("agents", [FS.file "a.md"])] []).created ⊆
      (installExtensions ["agents", "commands"] false
        [("agents", [FS.file "a.md"])] []).copied ∧
    DisjL (installExtensions ["agents", "commands"] false
        [("agents", [FS.file "a.md"])] []).copied
      (installExtensions ["agents", "commands"] false
        [("agents", [FS.file "a.md"])] []).skipped := by
  have h := installExtensions_report_invariants ["agents", "commands"] false
    [("agents", [FS.file "a.md"])] []
  refine ⟨h.1, h.2 (by decide) ?_⟩
  intro dr es hes
  simp only [lookupMap] at hes
  split at hes
  · cases hes
    simp [filePaths]
  · simp [lookupMap] at hes

/-- The loader fold computes its definitions component independently
of the warning component. -/
theorem loadFold_fst (stepRes : List (String × List (String × Value)) →
      DirEnt → List (String × List (String × Value)))
    (entries : List DirEnt) :
    ∀ (a : List (String × List (String × Value))) (w : List String),
      (entries.foldl (fun acc e => (stepRes acc.1 e, agentStepWarn acc.2 e))
        (a, w)).1 = entries.foldl stepRes a := by
  induction entries with
  | nil => intro a w; rfl
  | cons e rest ih => intro a w; exact ih _ _

/-- The loader fold computes its warning component independently of
the definitions component. -/
theorem loadFold_snd (stepRes : List (String × List (String × Value)) →
      DirEnt → List (String × List (String × Value)))
    (entries : List DirEnt) :
    ∀ (a : List (String × List (String × Value))) (w : List String),
      (entries.foldl (fun acc e => (stepRes acc.1 e, agentStepWarn acc.2 e))
        (a, w)).2 = entries.foldl agentStepWarn w := by
  induction entries with
  | nil => intro a w; rfl
  | cons e rest ih => intro a w; exact ih _ _

/-- A warning step appends to whatever log it is given. -/
theorem agentStepWarn_split (w : List String) (e : DirEnt) :
    agentStepWarn w e = w ++ agentStepWarn [] e := by
  unfold agentStepWarn
  split_ifs
  · cases e.content <;> simp
  · simp

/-- The accumulated warning log splits off its initial segment. -/
theorem foldl_warn_split (entries : List DirEnt) :
    ∀ w : List String,
      entries.foldl agentStepWarn w = w ++ entries.foldl agentStepWarn [] := by
  induction entries with
  | nil => intro w; simp
  | cons e rest ih =>
      intro w
      rw [List.foldl_cons, List.foldl_cons, ih (agentStepWarn w e),
        ih (agentStepWarn [] e), agentStepWarn_split w e,
        List.append_assoc]

/-- A throwing read contributes nothing to the agent definitions. -/
theorem agentStepRes_throw (a : List (String × List (String × Value)))
    (n : String) : agentStepRes a ⟨n, true, none⟩ = a := by
  unfold agentStepRes
  split_ifs <;> rfl

/-- A throwing read contributes nothing to the command definitions. -/
theorem commandStepRes_throw (a : List (String × List (String × Value)))
    (n : String) : commandStepRes a ⟨n, true, none⟩ = a := by
  unfold commandStepRes
  split_ifs <;> rfl

/-- A throwing read of a scanned markdown file is logged. -/
theorem agentStepWarn_throw (w : List String) (n : String)
    (hmd : mdSuffix n = true) :
    agentStepWarn w ⟨n, true, none⟩ = w ++ [n] := by
  unfold agentStepWarn
  rw [if_pos (by simp [hmd])]

/-- C9: a file whose read throws is skipped with a warning naming it,
and the definitions built from every other file of the scan are
unchanged, for the agent and the command loader alike. -/
theorem loaders_failure_isolation (pre post : List DirEnt) (n : String)
    (hmd : mdSuffix n = true) :
    (loadAgents (pre ++ ⟨n, true, none⟩ :: post)).1 =
      (loadAgents (pre ++ post)).1 ∧
    n ∈ (loadAgents (pre ++ ⟨n, true, none⟩ :: post)).2 ∧
    (loadCommands (pre ++ ⟨n, true, none⟩ :: post)).1 =
      (loadCommands (pre ++ post)).1 ∧
    n ∈ (loadCommands (pre ++ ⟨n, true, none⟩ :: post)).2 := by
  have hmem : ∀ entriesA : List DirEnt,
      n ∈ ((pre ++ ⟨n, true, none⟩ :: post).foldl agentStepWarn []) := by
    intro _
    rw [List.foldl_append, List.foldl_cons,
      agentStepWarn_throw _ n hmd,
      foldl_warn_split post]
    simp
  refine ⟨?_, ?_, ?_, ?_⟩
  · unfold loadAgents
    rw [loadFold_fst agentStepRes _ [] [], loadFold_fst agentStepRes _ [] [],
      List.foldl_append, List.foldl_append, List.foldl_cons,
      agentStepRes_throw]
  · unfold loadAgents
    rw [loadFold_snd agentStepRes _ [] []]
    exact hmem []
  · unfold loadCommands
    rw [loadFold_fst commandStepRes _ [] [],
      loadFold_fst commandStepRes _ [] [],
      List.foldl_append, List.foldl_append, List.foldl_cons,
      commandStepRes_throw]
  · unfold loadCommands
    rw [loadFold_snd commandStepRes _ [] []]
    exact hmem []

/-- C9 witness: the isolation theorem evaluated on a three-file scan
whose second file throws; the first and third definitions are present
and the second is warned about. -/
theorem loaders_failure_isolation_witness :
    (loadAgents [ea1, ebad, ea3]).1 = (loadAgents [ea1, ea3]).1 ∧
    "bad.md" ∈ (loadAgents [ea1, ebad, ea3]).2 ∧
    (lookupMap (loadAgents [ea1, ebad, ea3]).1 "one").isSome = true ∧
    (lookupMap (loadAgents [ea1, ebad, ea3]).1 "three").isSome = true := by
  have h := loaders_failure_isolation [ea1] [ea3] "bad.md" (by decide)
  exact ⟨h.1, h.2.1, rfl, rfl⟩

end OpenKit
